import Mathlib

/-!
Shallow embedding of the core of `AR/neurocard.py` (the NeuroCard trial
controller): the error metric, the checkpoint gate, the learning-rate policy
selection, the gradient-accumulation discipline of `run_epoch`, the
multi-ordering forward pass, the ordering builder of `MakeMade`, and the
query-evaluation loop, together with theorems settling the specification
claims about them.

Conventions: Python floats are modelled as `ℚ`; tensors are abstracted to the
scalar values the control flow depends on; fallible code returns `Except`;
the numpy random generator, which is external to the repository, is a
parameter constrained to return a permutation of its input.
-/

set_option maxRecDepth 10000

deriving instance DecidableEq for Except

/-! ## Generic helpers (Python / numpy semantics) -/

/-- Python `str.startswith`, on names modelled as character lists. -/
def pyStartsWith : List Char → List Char → Bool
  | [], _ => true
  | _ :: _, [] => false
  | p :: ps, c :: cs => p = c && pyStartsWith ps cs

/-- Python `str.split(sep)` for a single separator character. -/
def splitOnChar (sep : Char) : List Char → List (List Char)
  | [] => [[]]
  | c :: cs =>
    let r := splitOnChar sep cs
    if c = sep then [] :: r
    else
      match r with
      | [] => [[c]]
      | h :: t => (c :: h) :: t

/-- Python `int(q)`: truncation toward zero. -/
def pyInt (q : ℚ) : ℤ := if 0 ≤ q then ⌊q⌋ else -⌊-q⌋

/-- `np.arange(a, b)`. -/
def npArange (a b : ℕ) : List ℕ := (List.range (b - a)).map (a + ·)

/-- `np.argwhere(order == x)[0][0]`: index of the first occurrence of `x`. -/
def npIndexOf (x : ℕ) : List ℕ → ℕ
  | [] => 0
  | y :: ys => if y = x then 0 else npIndexOf x ys + 1

/-- `np.insert(l, i, x)`. -/
def npInsert (i : ℕ) (x : ℕ) (l : List ℕ) : List ℕ := l.take i ++ x :: l.drop i

/-- `np.delete(order, np.argwhere(order == s))`: removes every occurrence. -/
def npDeleteAll (s : ℕ) (l : List ℕ) : List ℕ := l.filter (fun x => x != s)

/-- Keep the elements of `l` that do not occur in `rest`. -/
def filterOut (rest : List ℕ) (l : List ℕ) : List ℕ :=
  l.filter (fun x => decide (x ∉ rest))

/-- Concatenation of a list of lists. -/
def joinL : List (List ℕ) → List ℕ
  | [] => []
  | l :: ls => l ++ joinL ls

/-- `blk` occupies consecutive positions in `l`, in the order given by `blk`. -/
def isBlockOf (blk l : List ℕ) : Prop := ∃ u v, l = u ++ blk ++ v

/-- `np.max` over a nonempty list (0 on the empty list, where numpy raises). -/
def listMax : List ℚ → ℚ
  | [] => 0
  | [x] => x
  | x :: y :: t => max x (listMax (y :: t))

/-- Insertion into a sorted list, for sorting error series. -/
def insertSorted (x : ℚ) : List ℚ → List ℚ
  | [] => [x]
  | y :: ys => if x ≤ y then x :: y :: ys else y :: insertSorted x ys

/-- Insertion sort over `ℚ`. -/
def sortQ : List ℚ → List ℚ
  | [] => []
  | x :: xs => insertSorted x (sortQ xs)

/-- Modelled from the spec: `np.quantile` / `np.median` are external numpy
routines; the spec only requires "99th/95th percentile error, median error",
so they are modelled as the nearest-rank percentile of the sorted series. -/
def npQuantile (q : ℚ) (l : List ℚ) : ℚ :=
  let s := sortQ l
  s.getD ((⌈q * (s.length : ℚ)⌉).toNat - 1) 0

/-! ## Error metric (`NeuroCard.ErrorMetric`, neurocard.py lines 900-907) -/

/-- `ErrorMetric(est_card, card)` translated clause by clause from the source. -/
def ErrorMetric (est_card card : ℚ) : ℚ :=
  if card = 0 ∧ est_card ≠ 0 then est_card
  else if card ≠ 0 ∧ est_card = 0 then card
  else if card = 0 ∧ est_card = 0 then 1
  else max (est_card / card) (card / est_card)

/-! ## Checkpoint gate (`NeuroCard.setup` lines 683-686, `LoadCheckpoint`
lines 712-715) -/

/-- `LoadCheckpoint`: `all_ckpts = glob.glob(...)`; `assert len(all_ckpts) == 1`.
The glob result is passed in, the filesystem being external. -/
def LoadCheckpoint_glob (found : List String) : Except String String :=
  match found with
  | [c] => .ok c
  | _ => .error "No ckpt found or use tune.grid_search() for more than 1 ckpts"

/-- `setup` lines 683-686: a configured checkpoint is loaded; a missing
configuration hits `assert False`. -/
def setup_load_checkpoint (ckpt : Option String) (globFn : String → List String) :
    Except String String :=
  match ckpt with
  | some pat => LoadCheckpoint_glob (globFn pat)
  | none => .error "assert False"

/-! ## Learning-rate policy (`run_epoch` lines 158-179, `setup` lines 650-680) -/

/-- Which learning-rate branch `run_epoch` executes at one training step, with
the data that branch uses. -/
inductive LRAction where
  | constant (lr : ℚ)
  | custom (global_steps : ℕ)
  | warmup (t : ℚ) (global_steps : ℕ)
  | useSched
  deriving DecidableEq

/-- Python truthiness of an optional float (`if constant_lr:`). -/
def pyTruthyQ : Option ℚ → Bool
  | none => false
  | some c => c != 0

/-- The branch structure of `run_epoch` lines 158-179: `constant_lr`, then
`custom_lr_lambda`, then the warmup-inverse-sqrt default when no scheduler is
installed, else delegation to the scheduler.  A warmup value below 1 is
converted by `t = int(warmups * upto * epochs)`. -/
def lr_action (constant_lr : Option ℚ) (has_custom has_scheduler : Bool)
    (warmups : ℚ) (upto epochs global_steps : ℕ) : LRAction :=
  if pyTruthyQ constant_lr then .constant (constant_lr.getD 0)
  else if has_custom then .custom global_steps
  else if !has_scheduler then
    .warmup (if warmups < 1 then ((pyInt (warmups * upto * epochs) : ℤ) : ℚ) else warmups)
      global_steps
  else .useSched

/-- Outcome of the scheduler dispatch in `setup` lines 650-680. -/
structure LRSetup where
  has_scheduler : Bool
  has_custom : Bool
  deriving DecidableEq

def cosineStr : List Char := ['C','o','s','i','n','e','A','n','n','e','a','l','i','n','g','L','R']

def oneCycleStr : List Char := ['O','n','e','C','y','c','l','e','L','R']

def oneCycleDashPre : List Char := ['O','n','e','C','y','c','l','e','L','R','-']

def wdPre : List Char := ['w','d','_']

/-- `setup` lines 650-680: dispatch on the `lr_scheduler` configuration string.
`CosineAnnealingLR`, `OneCycleLR` and `OneCycleLR-...` install a stepped
scheduler; `wd_lr_frac` installs a custom lambda (asserting the split has
three parts); any other non-`None` value fails `assert self.lr_scheduler is
None`; `None` installs nothing. -/
def setup_lr_scheduler (cfg : Option (List Char)) : Except String LRSetup :=
  match cfg with
  | none => .ok ⟨false, false⟩
  | some s =>
    if s = cosineStr then .ok ⟨true, false⟩
    else if s = oneCycleStr then .ok ⟨true, false⟩
    else if pyStartsWith oneCycleDashPre s then .ok ⟨true, false⟩
    else if pyStartsWith wdPre s then
      if (splitOnChar '_' s).length = 3 then .ok ⟨false, true⟩
      else .error "assert len(splits) == 3"
    else .error "assert self.lr_scheduler is None"

/-! ## Gradient accumulation (`run_epoch` lines 235-247) -/

/-- The optimizer-facing events of one training step, in program order. -/
inductive TrainEv where
  | zeroGrad
  | backward (scaled_loss : ℚ)
  | optStep
  | schedStep
  deriving DecidableEq

/-- `run_epoch` lines 235-247 for one training step `step`:
`if step == 0: opt.zero_grad()`; `loss = loss / accum_iter`; `loss.backward()`;
`if ((step + 1) % accum_iter == 0) or (step + 1 == max_step): opt.step();
opt.zero_grad(); if lr_scheduler is not None: lr_scheduler.step()`. -/
def trainStepEvents (accum_iter max_step : ℕ) (has_scheduler : Bool) (loss : ℚ)
    (step : ℕ) : List TrainEv :=
  (if step = 0 then [TrainEv.zeroGrad] else []) ++
  [TrainEv.backward (loss / (accum_iter : ℚ))] ++
  (if (step + 1) % accum_iter = 0 ∨ step + 1 = max_step then
    [TrainEv.optStep, TrainEv.zeroGrad] ++
      (if has_scheduler then [TrainEv.schedStep] else [])
  else [])

/-- Checks that every `zeroGrad` in the trace is either allowed at the head
(first step) or comes immediately after an `optStep`. -/
def zeroOnlyAllowed (allow : Bool) : List TrainEv → Bool
  | [] => true
  | TrainEv.zeroGrad :: rest => allow && zeroOnlyAllowed false rest
  | TrainEv.optStep :: rest => zeroOnlyAllowed true rest
  | _ :: rest => zeroOnlyAllowed false rest

/-- Checks that every `optStep` is immediately followed by a `zeroGrad`. -/
def optFollowedByZero : List TrainEv → Bool
  | [] => true
  | TrainEv.optStep :: rest =>
    (match rest with
     | TrainEv.zeroGrad :: _ => true
     | _ => false) && optFollowedByZero rest
  | _ :: rest => optFollowedByZero rest

/-- Checks that every `schedStep` comes immediately after `optStep, zeroGrad`. -/
def schedAfterOptOk : List TrainEv → Bool
  | TrainEv.optStep :: TrainEv.zeroGrad :: TrainEv.schedStep :: rest => schedAfterOptOk rest
  | TrainEv.schedStep :: _ => false
  | _ :: rest => schedAfterOptOk rest
  | [] => true

/-- The payloads of the `backward` events of a trace. -/
def backwardPayloads : List TrainEv → List ℚ
  | [] => []
  | TrainEv.backward q :: rest => q :: backwardPayloads rest
  | _ :: rest => backwardPayloads rest

/-! ## Multi-ordering forward pass (`run_epoch` lines 191-231) -/

inductive EvSplit where
  | train
  | test
  deriving DecidableEq

/-- How many masked forward passes one batch runs through and how many
`update_masks` calls precede them. -/
structure BatchTrace where
  mask_updates : ℕ
  forward_count : ℕ
  deriving DecidableEq

/-- `run_epoch` lines 191-231 for one batch.  `nsamples` is the size of the
ordering ensemble carried by the model; `model_out i` abstracts the logits of
the forward pass under the `i`-th installed ordering and `nll` the mean
negative log-likelihood.  At `split == 'test'` with more than one ordering the
batch is forwarded through every ordering and the outputs are summed, but the
loss branch for that case is `assert False` (line 213; the averaging code
after it is unreachable). -/
def runBatchOrderings (split : EvSplit) (nsamples : ℕ) (has_update_masks : Bool)
    (model_out : ℕ → ℚ) (nll : ℚ → ℚ) : Except String (ℚ × BatchTrace) :=
  let num_orders_to_forward := if split = EvSplit.test ∧ 1 < nsamples then nsamples else 1
  let xbhat := ((List.range num_orders_to_forward).map model_out).sum
  let trace : BatchTrace :=
    ⟨if has_update_masks then num_orders_to_forward else 0, num_orders_to_forward⟩
  if num_orders_to_forward = 1 then .ok (nll xbhat, trace)
  else .error "assert False"

/-! ## Ordering builder (`MakeMade`, neurocard.py lines 403-471) -/

/-- A training column: only its name matters to the ordering builder. -/
structure SpecCol where
  name : List Char
  deriving DecidableEq

def virtPre : List Char := ['_', '_']

def indPre : List Char := ['_', '_', 'i', 'n', '_']

/-- `c.name.startswith('__')`: virtual column. -/
def isVirtualCol (c : SpecCol) : Bool := pyStartsWith virtPre c.name

/-- `c.name.startswith('__in_')`: indicator column. -/
def isIndicatorCol (c : SpecCol) : Bool := pyStartsWith indPre c.name

/-- One ordering before factorization correction (`MakeMade` lines 406-439).
`rng seed bracket` abstracts `np.random.RandomState(seed).permutation(bracket)`,
the numpy generator being external to the repository; every theorem assumes it
returns a permutation of its input.  In `order_content_only` mode the three
brackets `{content}, {indicators}, {fanouts}` are permuted independently and
concatenated in one of the two fixed arrangements. -/
def makeOrderBase (rng : ℕ → List ℕ → List ℕ) (order_content_only order_indicators_at_front : Bool)
    (cols : List SpecCol) (seed : ℕ) : List ℕ :=
  let n := cols.length
  if order_content_only then
    let num_content := (cols.filter (fun c => !(isVirtualCol c))).length
    let num_indicators := (cols.filter isIndicatorCol).length
    let content := rng seed (npArange 0 num_content)
    let inds := rng seed (npArange num_content (num_content + num_indicators))
    let fanouts := rng seed (npArange (num_content + num_indicators) n)
    if order_indicators_at_front then inds ++ content ++ fanouts
    else content ++ inds ++ fanouts
  else rng seed (List.range n)

/-- The inner loop of the factorization correction (`MakeMade` lines 452-459):
for each later sub-variable, delete it and reinsert it `j` slots after the
first sub-variable. -/
def subvarLoop (first : ℕ) : List ℕ → ℕ → List ℕ → List ℕ
  | [], _, order => order
  | s :: rest, j, order =>
    let o := npDeleteAll s order
    subvarLoop first rest (j + 1) (npInsert (npIndexOf first o + j) s o)

/-- Factorization correction for one original column whose sub-variables sit at
the given `cols_to_train` indices, in ascending sub-variable order. -/
def correctSubvars (order : List ℕ) : List ℕ → List ℕ
  | [] => order
  | first :: rest => subvarLoop first rest 1 order

/-- Factorization correction over every factorized original column
(`MakeMade` lines 441-461); `fm` lists, per original column, the indices of
its sub-variable columns in ascending sub-variable order. -/
def correctOrder (fm : List (List ℕ)) (order : List ℕ) : List ℕ :=
  fm.foldl correctSubvars order

/-- The orderings `MakeMade` installs on the model (before the optional
inversion of lines 465-468): `None` when `special_orders == 0`, otherwise one
seeded order per ensemble index `i`, built with seed `i + 1` and corrected for
sub-variable contiguity when a factor table is present. -/
def makeMadeOrders (rng : ℕ → List ℕ → List ℕ) (special_orders : ℕ)
    (order_content_only order_indicators_at_front : Bool) (cols : List SpecCol)
    (factMapping : Option (List (List ℕ))) : Option (List (List ℕ)) :=
  if special_orders > 0 then
    some ((List.range special_orders).map (fun i =>
      let base := makeOrderBase rng order_content_only order_indicators_at_front cols (i + 1)
      match factMapping with
      | some fm => correctOrder fm base
      | none => base))
  else none

/-- A deterministic generator satisfying the permutation contract, used as an
explicit instance of the external numpy generator. -/
def revRng : ℕ → List ℕ → List ℕ := fun _ l => l.reverse

/-! ## Query-evaluation loop (`NeuroCard.evaluate` lines 1021-1107,
`Query` lines 910-934, `NotSupportQuery` lines 936-940) -/

/-- One entry of the running log of an estimator, as appended by
`est.AddError(err, est_card, card)`. -/
structure LogEntry where
  err : ℚ
  est_card : ℚ
  true_card : ℚ
  deriving DecidableEq

/-- One workload query, abstracted to what the evaluation loop observes: does
the estimator call raise, the per-estimator estimates when it does not, and the
per-estimator values returned by `est.Query(..., not_support=True)` (estimator
internals are external to the repository). -/
structure QuerySpec where
  raises : Bool
  estCards : List ℚ
  nsCards : List ℚ
  deriving DecidableEq

/-- The mutable state the evaluation loop threads: the running log of each
estimator, the `err_queries` list, and the queries whose traces were appended
to the per-workload `*_err_query_trace.log` file. -/
structure EvalState where
  logs : List (List LogEntry)
  err_queries : List ℕ
  trace_log : List ℕ
  deriving DecidableEq

/-- The body of the loop of `evaluate` for query `i` (lines 1047-1074).  A
pre-flagged unsupported query hits `assert False` (line 1053).  A raising query
is caught: `NotSupportQuery` appends a sentinel entry with code `0` to every
running log, the index joins `err_queries`, the trace is written to the error
log - and then `assert False` (line 1074) raises, carried as `.error`. -/
def evalOneQuery (not_support_idx : List ℕ) (oracleCard : ℚ) (q : QuerySpec)
    (i : ℕ) (st : EvalState) : Except EvalState EvalState :=
  if i ∈ not_support_idx then .error st
  else if q.raises then
    .error
      { st with
        logs := st.logs.zipWith (fun log ns => log ++ [⟨0, ns, 0⟩]) q.nsCards
        err_queries := st.err_queries ++ [i]
        trace_log := st.trace_log ++ [i] }
  else
    .ok
      { st with
        logs := st.logs.zipWith
          (fun log ec => log ++ [⟨ErrorMetric ec oracleCard, ec, oracleCard⟩]) q.estCards }

/-- The loop `for i in range(num_queries)` of `evaluate`. -/
def runQueries (queries : List QuerySpec) (oracle : List ℚ) (not_support_idx : List ℕ)
    (num : ℕ) (st : EvalState) : Except EvalState EvalState :=
  (List.range num).foldlM
    (fun s i => evalOneQuery not_support_idx (oracle.getD i 0) (queries.getD i ⟨false, [], []⟩) i s)
    st

def maxSuf : List Char := ['_', 'm', 'a', 'x']

def p99Suf : List Char := ['_', 'p', '9', '9']

def p95Suf : List Char := ['_', 'p', '9', '5']

def medianSuf : List Char := ['_', 'm', 'e', 'd', 'i', 'a', 'n']

/-- The aggregation of lines 1084-1088: per estimator, maximum, 99th and 95th
percentile and median of its error series, keyed by the estimator name. -/
def evalResults : List (List Char) → List (List LogEntry) → List (List Char × ℚ)
  | [], _ => []
  | _ :: _, [] => []
  | nm :: nms, log :: logs =>
    let errs := log.map (fun e => e.err)
    (nm ++ maxSuf, listMax errs) ::
    (nm ++ p99Suf, npQuantile (99/100) errs) ::
    (nm ++ p95Suf, npQuantile (95/100) errs) ::
    (nm ++ medianSuf, npQuantile (1/2) errs) :: evalResults nms logs

/-- `NeuroCard.evaluate`: run the workload; on the no-error path return the
final state and the aggregated report, otherwise propagate the abort with the
state at that point.  `est_names` name the estimators (`str(est)`). -/
def NeuroCard_evaluate (num_queries : ℕ) (queries : List QuerySpec) (oracle : List ℚ)
    (not_support_idx : List ℕ) (est_names : List (List Char)) :
    Except EvalState (EvalState × List (List Char × ℚ)) :=
  let st0 : EvalState := ⟨est_names.map (fun _ => []), [], []⟩
  if num_queries = 0 then .ok (st0, [])
  else
    match runQueries queries oracle not_support_idx (min queries.length num_queries) st0 with
    | .error st => .error st
    | .ok st => .ok (st, evalResults est_names st.logs)

/-! ## Trial controller step (`NeuroCard.step` lines 854-863,
`_maybe_check_asserts` lines 865-879, `LoadCheckpoint` line 725) -/

/-- The dict returned by `NeuroCard.step`. -/
structure StepResult where
  epoch : ℕ
  done : Bool
  results : List (List Char × ℚ)
  deriving DecidableEq

/-- The controller state that `step` consumes. -/
structure TrialState where
  epoch : ℕ
  asserts : Option (List (List Char × ℚ))
  num_eval_queries_at_checkpoint_load : ℕ
  queries : List QuerySpec
  oracle_cards : List ℚ
  not_support_idx : List ℕ
  est_names : List (List Char)
  deriving DecidableEq

/-- `LoadCheckpoint` line 725: `self.epoch = loaded['epoch']`. -/
def NeuroCard_load_epoch (st : TrialState) (loadedEpoch : ℕ) : TrialState :=
  { st with epoch := loadedEpoch }

/-- Dict lookup in the step results. -/
def lookupResult (results : List (List Char × ℚ)) (k : List Char) : Option ℚ :=
  (results.find? (fun p => p.1 = k)).map (fun p => p.2)

/-- The loop of `_maybe_check_asserts`: collect every breached key; a key
missing from `results` dereferences `returns[key]` with `returns = None`,
a `TypeError`. -/
def checkAssertsLoop (results : List (List Char × ℚ)) :
    List (List Char × ℚ) → Except String (List (List Char))
  | [] => .ok []
  | (k, maxv) :: rest =>
    match lookupResult results k with
    | some v =>
      match checkAssertsLoop results rest with
      | .error e => .error e
      | .ok m => .ok (if maxv ≤ v then k :: m else m)
    | none => .error "TypeError: NoneType is not subscriptable"

/-- `_maybe_check_asserts(results, returns=None)`: skipped when no asserts are
configured, otherwise `assert not error`. -/
def maybeCheckAsserts (asserts : Option (List (List Char × ℚ)))
    (results : List (List Char × ℚ)) : Except String Unit :=
  match asserts with
  | none => .ok ()
  | some l =>
    if l.isEmpty then .ok ()
    else
      match checkAssertsLoop results l with
      | .error e => .error e
      | .ok m => if m.isEmpty then .ok () else .error "AssertionError"

/-- `NeuroCard.step`: evaluate, check asserts, and return
`{'epoch': 0, 'done': True, 'results': results}` (lines 859-863). -/
def NeuroCard_step (st : TrialState) : Except String StepResult :=
  match NeuroCard_evaluate st.num_eval_queries_at_checkpoint_load st.queries
      st.oracle_cards st.not_support_idx st.est_names with
  | .error _ => .error "AssertionError"
  | .ok (_, results) =>
    match maybeCheckAsserts st.asserts results with
    | .error e => .error e
    | .ok _ => .ok { epoch := 0, done := true, results := results }

/-! ## Theorems -/

/-- Claim C4: for nonnegative inputs, `ErrorMetric(est, true)` is `1` when both
arguments are zero, the nonzero argument when exactly one is zero, and
`max(est/true, true/est)` otherwise; it is symmetric in its arguments and
`ErrorMetric(t, t) = 1` for `t > 0`. -/
theorem C4_ErrorMetric_spec (e t : ℚ) (he : 0 ≤ e) (ht : 0 ≤ t) :
    (e = 0 ∧ t = 0 → ErrorMetric e t = 1) ∧
    (t = 0 ∧ e ≠ 0 → ErrorMetric e t = e) ∧
    (e = 0 ∧ t ≠ 0 → ErrorMetric e t = t) ∧
    (e ≠ 0 ∧ t ≠ 0 → ErrorMetric e t = max (e / t) (t / e)) ∧
    ErrorMetric e t = ErrorMetric t e ∧
    (0 < t → ErrorMetric t t = 1) := by
  refine ⟨?_, ?_, ?_, ?_, ?_, ?_⟩
  · rintro ⟨h1, h2⟩; simp [ErrorMetric, h1, h2]
  · rintro ⟨h1, h2⟩; simp [ErrorMetric, h1, h2]
  · rintro ⟨h1, h2⟩; simp [ErrorMetric, h1, h2]
  · rintro ⟨h1, h2⟩; simp [ErrorMetric, h1, h2]
  · by_cases h1 : e = 0 <;> by_cases h2 : t = 0 <;>
      simp [ErrorMetric, h1, h2, max_comm]
  · intro h1
    have h2 : t ≠ 0 := ne_of_gt h1
    simp [ErrorMetric, h2, div_self h2]

/-- Witness for C4 at `e = 2`, `t = 4`. -/
theorem C4_ErrorMetric_spec_witness :
    ErrorMetric 2 4 = max ((2 : ℚ) / 4) (4 / 2) ∧
    ErrorMetric 2 4 = ErrorMetric 4 2 ∧ ErrorMetric (4 : ℚ) 4 = 1 := by
  have h := C4_ErrorMetric_spec 2 4 (by norm_num) (by norm_num)
  exact ⟨h.2.2.2.1 ⟨by norm_num, by norm_num⟩, h.2.2.2.2.1, h.2.2.2.2.2 (by norm_num)⟩

/-- Claim C9: checkpoint loading at setup is mandatory (no configured
checkpoint hits `assert False`) and the glob pattern must match exactly one
file: setup succeeds exactly when a pattern is configured and its glob result
has length one. -/
theorem C9_checkpoint_gate (ckpt : Option String) (globFn : String → List String) :
    setup_load_checkpoint none globFn = .error "assert False" ∧
    ((∃ c, setup_load_checkpoint ckpt globFn = .ok c) ↔
      ∃ pat, ckpt = some pat ∧ (globFn pat).length = 1) := by
  refine ⟨rfl, ?_, ?_⟩
  · rintro ⟨c, hc⟩
    cases hck : ckpt with
    | none => rw [hck] at hc; simp [setup_load_checkpoint] at hc
    | some pat =>
      refine ⟨pat, rfl, ?_⟩
      rw [hck] at hc
      rcases hg : globFn pat with _ | ⟨a, _ | ⟨b, tl⟩⟩ <;>
        simp_all [setup_load_checkpoint, LoadCheckpoint_glob]
  · rintro ⟨pat, hpat, hlen⟩
    subst hpat
    rcases hg : globFn pat with _ | ⟨a, _ | ⟨b, tl⟩⟩ <;> rw [hg] at hlen <;> simp at hlen
    exact ⟨a, by simp [setup_load_checkpoint, LoadCheckpoint_glob, hg]⟩

/-- Claim C2: in the training split each batch is forwarded through exactly
one currently-installed ordering with a mask update before the forward, and
outputs are never summed across orderings; but at the evaluation split with an
ensemble of more than one ordering, after forwarding through every ordering
the loss branch is `assert False` (neurocard.py line 213), so no combined loss
is computed or returned - the code aborts on that input. -/
theorem C2_batch_orderings :
    (∀ (nsamples : ℕ) (model_out : ℕ → ℚ) (nll : ℚ → ℚ),
      runBatchOrderings EvSplit.train nsamples true model_out nll =
        .ok (nll (model_out 0), ⟨1, 1⟩)) ∧
    runBatchOrderings EvSplit.test 2 true (fun i => (i : ℚ)) (fun x => x) =
      .error "assert False" := by
  constructor
  · intro ns f g
    have h1 : List.range 1 = [0] := rfl
    simp [runBatchOrderings, h1]
  · simp [runBatchOrderings]

/-- Claim C7 counterexample: with no constant rate, no custom lambda and no
external scheduler configured, setup succeeds (it does not fail fast) and the
training step silently applies the default warmup-then-inverse-square-root
policy. -/
theorem C7_counterexample :
    setup_lr_scheduler none = .ok ⟨false, false⟩ ∧
    lr_action none false false 1000 20 1 5 = .warmup 1000 5 := by
  constructor
  · rfl
  · simp [lr_action, pyTruthyQ]

/-- Claim C7 (amended): exactly one learning-rate branch is selected at every
training step, in the precedence order constant, custom, warmup default,
external scheduler; when none of constant/custom/scheduler is configured,
setup succeeds and the warmup schedule acts as the default policy; setup
fails fast only when the scheduler selector is an unrecognized non-None
value. -/
theorem C7_lr_policy_amended (c : Option ℚ) (k s : Bool) (w : ℚ) (u ep gs : ℕ)
    (cfg : List Char) :
    (pyTruthyQ c = true → ∃ v, lr_action c k s w u ep gs = .constant v) ∧
    (pyTruthyQ c = false → k = true → lr_action c k s w u ep gs = .custom gs) ∧
    (pyTruthyQ c = false → k = false → s = false →
      ∃ t, lr_action c k s w u ep gs = .warmup t gs) ∧
    (pyTruthyQ c = false → k = false → s = true →
      lr_action c k s w u ep gs = .useSched) ∧
    setup_lr_scheduler none = .ok ⟨false, false⟩ ∧
    (cfg ≠ cosineStr → cfg ≠ oneCycleStr → pyStartsWith oneCycleDashPre cfg = false →
      pyStartsWith wdPre cfg = false →
      setup_lr_scheduler (some cfg) = .error "assert self.lr_scheduler is None") := by
  refine ⟨?_, ?_, ?_, ?_, rfl, ?_⟩
  · intro h; exact ⟨c.getD 0, by simp [lr_action, h]⟩
  · intro h1 h2; simp [lr_action, h1, h2]
  · intro h1 h2 h3
    exact ⟨if w < 1 then ((pyInt (w * u * ep) : ℤ) : ℚ) else w,
      by simp [lr_action, h1, h2, h3]⟩
  · intro h1 h2 h3; simp [lr_action, h1, h2, h3]
  · intro h1 h2 h3 h4
    simp [setup_lr_scheduler, h1, h2, h3, h4]

/-- Witness for the amended C7 on concrete configurations. -/
theorem C7_lr_policy_amended_witness :
    (∃ v, lr_action (some 2) true true 1 10 1 5 = .constant v) ∧
    lr_action none true false 1 10 1 5 = .custom 5 ∧
    (∃ t, lr_action none false false 1 10 1 5 = .warmup t 5) ∧
    lr_action none false true 1 10 1 5 = .useSched ∧
    setup_lr_scheduler (some ['x']) = .error "assert self.lr_scheduler is None" := by
  refine ⟨?_, ?_, ?_, ?_, ?_⟩
  · exact (C7_lr_policy_amended (some 2) true true 1 10 1 5 ['x']).1
      (by simp [pyTruthyQ])
  · exact (C7_lr_policy_amended none true false 1 10 1 5 ['x']).2.1 rfl rfl
  · exact (C7_lr_policy_amended none false false 1 10 1 5 ['x']).2.2.1 rfl rfl rfl
  · exact (C7_lr_policy_amended none false true 1 10 1 5 ['x']).2.2.2.1 rfl rfl rfl
  · exact (C7_lr_policy_amended none false true 1 10 1 5 ['x']).2.2.2.2.2
      (by decide) (by decide) (by decide) (by decide)

/-- Claim C8: the learning-rate policies are evaluated each training step in
the fixed precedence order constant, custom lambda, warmup-inverse-sqrt,
external scheduler - in particular a (nonzero) constant rate beats a custom
lambda - and a warmup parameter below 1 is converted to an absolute step count
by `t = int(warmups * upto * epochs)`. -/
theorem C8_lr_precedence (v : ℚ) (c : Option ℚ) (k s : Bool) (w : ℚ) (u ep gs : ℕ) :
    (v ≠ 0 → lr_action (some v) k s w u ep gs = .constant v) ∧
    (pyTruthyQ c = false → k = true → lr_action c k s w u ep gs = .custom gs) ∧
    (pyTruthyQ c = false → k = false → s = false →
      lr_action c k s w u ep gs =
        .warmup (if w < 1 then ((pyInt (w * u * ep) : ℤ) : ℚ) else w) gs) ∧
    (pyTruthyQ c = false → k = false → s = true →
      lr_action c k s w u ep gs = .useSched) ∧
    (w < 1 →
      (if w < 1 then ((pyInt (w * u * ep) : ℤ) : ℚ) else w) =
        ((pyInt (w * u * ep) : ℤ) : ℚ)) := by
  refine ⟨?_, ?_, ?_, ?_, ?_⟩
  · intro h
    have hb : pyTruthyQ (some v) = true := by simp [pyTruthyQ, h]
    simp [lr_action, hb]
  · intro h1 h2; simp [lr_action, h1, h2]
  · intro h1 h2 h3; simp [lr_action, h1, h2, h3]
  · intro h1 h2 h3; simp [lr_action, h1, h2, h3]
  · intro h; simp [h]

/-- Witness for C8 on concrete configurations, including the fractional
warmup conversion `int(0.5 * 10 * 2) = 10`. -/
theorem C8_lr_precedence_witness :
    lr_action (some 2) true true 1 10 2 7 = .constant 2 ∧
    lr_action none true false 1 10 2 7 = .custom 7 ∧
    lr_action none false false (1 / 2) 10 2 7 = .warmup 10 7 ∧
    lr_action none false true 1 10 2 7 = .useSched := by
  refine ⟨?_, ?_, ?_, ?_⟩
  · exact (C8_lr_precedence 2 none true true 1 10 2 7).1 (by norm_num)
  · exact (C8_lr_precedence 2 none true false 1 10 2 7).2.1 rfl rfl
  · have h := (C8_lr_precedence 2 none false false (1 / 2) 10 2 7).2.2.1 rfl rfl rfl
    rw [h]
    norm_num [pyInt]
  · exact (C8_lr_precedence 2 none false true 1 10 2 7).2.2.2.1 rfl rfl rfl

/-- An optimizer step occurs at a training step exactly when the accumulation
window completes or the global step budget is reached (the gate of
neurocard.py line 242). -/
theorem optStep_mem_trainStepEvents (w m : ℕ) (sch : Bool) (loss : ℚ) (step : ℕ) :
    TrainEv.optStep ∈ trainStepEvents w m sch loss step ↔
      ((step + 1) % w = 0 ∨ step + 1 = m) := by
  by_cases hf : (step + 1) % w = 0 ∨ step + 1 = m <;>
    by_cases h0 : step = 0 <;> cases sch <;>
      simp [trainStepEvents, hf, h0]

/-- Claim C3: with accumulation window `w` and step budget `max_step`,
gradients are zeroed only at the first step and immediately after each
optimizer step, the loss is divided by `w` before the backward pass, an
optimizer step fires exactly when `(step+1)` is a multiple of `w` or equals
`max_step` - exactly once per completed window - and the scheduler, when
configured, steps immediately after the optimizer step. -/
theorem C3_grad_accumulation (w m step k j : ℕ) (loss : ℚ) (sch : Bool)
    (hw : 0 < w) (hk : (k + 1) * w ≤ m) (hj : j < w) :
    (TrainEv.optStep ∈ trainStepEvents w m sch loss step ↔
      ((step + 1) % w = 0 ∨ step + 1 = m)) ∧
    zeroOnlyAllowed (decide (step = 0)) (trainStepEvents w m sch loss step) = true ∧
    optFollowedByZero (trainStepEvents w m sch loss step) = true ∧
    backwardPayloads (trainStepEvents w m sch loss step) = [loss / (w : ℚ)] ∧
    schedAfterOptOk (trainStepEvents w m sch loss step) = true ∧
    (sch = false → TrainEv.schedStep ∉ trainStepEvents w m sch loss step) ∧
    (sch = true → (TrainEv.schedStep ∈ trainStepEvents w m sch loss step ↔
      TrainEv.optStep ∈ trainStepEvents w m sch loss step)) ∧
    (TrainEv.optStep ∈ trainStepEvents w m sch loss (k * w + j) ↔ j = w - 1) := by
  refine ⟨optStep_mem_trainStepEvents w m sch loss step, ?_, ?_, ?_, ?_, ?_, ?_, ?_⟩
  · unfold trainStepEvents
    split_ifs <;> simp_all [zeroOnlyAllowed]
  · unfold trainStepEvents
    split_ifs <;> simp [optFollowedByZero]
  · unfold trainStepEvents
    split_ifs <;> simp [backwardPayloads]
  · unfold trainStepEvents
    split_ifs <;> simp [schedAfterOptOk]
  · intro hs
    subst hs
    unfold trainStepEvents
    split_ifs <;> simp_all
  · intro hs
    subst hs
    unfold trainStepEvents
    split_ifs <;> simp_all
  · rw [optStep_mem_trainStepEvents]
    have hmod : (k * w + j + 1) % w = (j + 1) % w := by
      have harr : k * w + j + 1 = (j + 1) + k * w := by ring
      rw [harr, Nat.add_mul_mod_self_right]
    constructor
    · rintro (h | h)
      · rw [hmod] at h
        have hd : w ∣ j + 1 := Nat.dvd_of_mod_eq_zero h
        have hle : w ≤ j + 1 := Nat.le_of_dvd (Nat.succ_pos j) hd
        omega
      · have harr : (k + 1) * w = k * w + w := by ring
        omega
    · intro h
      left
      rw [hmod]
      have hjw : j + 1 = w := by omega
      rw [hjw, Nat.mod_self]

/-- Witness for C3 at `w = 2`, `max_step = 4`, `step = 1`, window `k = 1`,
offset `j = 1`. -/
theorem C3_grad_accumulation_witness :
    (TrainEv.optStep ∈ trainStepEvents 2 4 true 1 1 ↔ ((1 + 1) % 2 = 0 ∨ 1 + 1 = 4)) ∧
    zeroOnlyAllowed (decide ((1 : ℕ) = 0)) (trainStepEvents 2 4 true 1 1) = true ∧
    optFollowedByZero (trainStepEvents 2 4 true 1 1) = true ∧
    backwardPayloads (trainStepEvents 2 4 true 1 1) = [1 / ((2 : ℕ) : ℚ)] ∧
    schedAfterOptOk (trainStepEvents 2 4 true 1 1) = true ∧
    (true = false → TrainEv.schedStep ∉ trainStepEvents 2 4 true 1 1) ∧
    (true = true → (TrainEv.schedStep ∈ trainStepEvents 2 4 true 1 1 ↔
      TrainEv.optStep ∈ trainStepEvents 2 4 true 1 1)) ∧
    (TrainEv.optStep ∈ trainStepEvents 2 4 true 1 (1 * 2 + 1) ↔ 1 = 2 - 1) :=
  C3_grad_accumulation 2 4 1 1 1 1 true (by norm_num) (by norm_num) (by norm_num)

/-- Claim C1: on a workload of 2 queries where query 1 raises during
estimation, `evaluate` catches the exception, records the sentinel entry
(code 0) in the running log of the estimator, appends the query to
`err_queries` and writes the trace to the per-workload error log - and then
executes `assert False` (neurocard.py line 1074), aborting the workload
instead of continuing with the next query, so no report covering all N
queries is returned. -/
theorem C1_evaluate_aborts :
    NeuroCard_evaluate 2 [⟨false, [500], []⟩, ⟨true, [], [7]⟩] [1000, 1000] [] [['e']] =
      .error ⟨[[⟨2, 500, 1000⟩, ⟨0, 7, 0⟩]], [1], [1]⟩ := by
  have hEM : ErrorMetric 500 1000 = 2 := by
    rw [ErrorMetric]
    rw [if_neg (by norm_num), if_neg (by norm_num), if_neg (by norm_num), max_def]
    norm_num
  have hr : List.range 2 = [0, 1] := rfl
  simp [NeuroCard_evaluate, runQueries, evalOneQuery, hEM, hr, List.foldlM,
    Bind.bind, Except.bind]

/-- Claim C10: whenever `step()` returns, its result carries the constants
`epoch = 0` and `done = True`, independently of the epoch value previously
restored into the controller by `LoadCheckpoint`. -/
theorem C10_step_fields (st : TrialState) (r : StepResult) (e : ℕ)
    (h : NeuroCard_step st = .ok r) :
    r.epoch = 0 ∧ r.done = true ∧
      NeuroCard_step (NeuroCard_load_epoch st e) = NeuroCard_step st := by
  refine ⟨?_, ?_, rfl⟩ <;>
  · unfold NeuroCard_step at h
    split at h
    · simp at h
    · split at h
      · simp at h
      · injection h with h2
        rw [← h2]

/-- Witness for C10: a controller state with restored epoch 5, one successful
query, no asserts; `step` returns `epoch = 0`, `done = True`. -/
theorem C10_step_fields_witness :
    (⟨0, true, [(['e','_','m','a','x'], 1), (['e','_','p','9','9'], 1),
      (['e','_','p','9','5'], 1), (['e','_','m','e','d','i','a','n'], 1)]⟩ :
        StepResult).epoch = 0 ∧
    (⟨0, true, [(['e','_','m','a','x'], 1), (['e','_','p','9','9'], 1),
      (['e','_','p','9','5'], 1), (['e','_','m','e','d','i','a','n'], 1)]⟩ :
        StepResult).done = true ∧
    NeuroCard_step
        (NeuroCard_load_epoch ⟨5, none, 1, [⟨false, [100], []⟩], [100], [], [['e']]⟩ 3) =
      NeuroCard_step ⟨5, none, 1, [⟨false, [100], []⟩], [100], [], [['e']]⟩ := by
  have hEM : ErrorMetric 100 100 = 1 := by
    rw [ErrorMetric]
    rw [if_neg (by norm_num), if_neg (by norm_num), if_neg (by norm_num)]
    norm_num
  have hq : ∀ q : ℚ, 0 < q → q ≤ 1 → npQuantile q [1] = 1 := by
    intro q h1 h2
    have hc : ⌈q⌉ = 1 := by
      rw [Int.ceil_eq_iff]
      constructor <;> push_cast <;> linarith
    simp [npQuantile, sortQ, insertSorted, hc]
  have hq99 := hq (99/100) (by norm_num) (by norm_num)
  have hq95 := hq (95/100) (by norm_num) (by norm_num)
  have hq50 := hq (2⁻¹) (by norm_num) (by norm_num)
  have hr : List.range 1 = [0] := rfl
  have hstep :
      NeuroCard_step ⟨5, none, 1, [⟨false, [100], []⟩], [100], [], [['e']]⟩ =
        .ok ⟨0, true, [(['e','_','m','a','x'], 1), (['e','_','p','9','9'], 1),
          (['e','_','p','9','5'], 1), (['e','_','m','e','d','i','a','n'], 1)]⟩ := by
    simp [NeuroCard_step, NeuroCard_evaluate, runQueries, evalOneQuery, evalResults,
      maybeCheckAsserts, listMax, hEM, hq99, hq95, hq50, hr, List.foldlM,
      Bind.bind, Except.bind, Pure.pure, Except.pure, maxSuf, p99Suf, p95Suf, medianSuf]
  exact C10_step_fields _ _ 3 hstep

/-- A name starting with `__in_` starts with `__`. -/
theorem indicator_starts_virtual (s : List Char) :
    pyStartsWith indPre s = true → pyStartsWith virtPre s = true := by
  match s with
  | [] => simp [pyStartsWith, indPre, virtPre]
  | [a] => simp [pyStartsWith, indPre, virtPre]
  | a :: b :: t =>
    intro h
    simp [pyStartsWith, indPre, virtPre] at h ⊢
    exact ⟨h.1, h.2.1⟩

/-- An indicator column is virtual. -/
theorem indicatorCol_virtual (c : SpecCol) :
    isIndicatorCol c = true → isVirtualCol c = true :=
  indicator_starts_virtual c.name

/-- The content and indicator brackets cannot overcount the columns. -/
theorem content_ind_le (cols : List SpecCol) :
    (cols.filter (fun c => !(isVirtualCol c))).length +
      (cols.filter isIndicatorCol).length ≤ cols.length := by
  induction cols with
  | nil => simp
  | cons c cs ih =>
    by_cases hv : isVirtualCol c = true
    · by_cases hi : isIndicatorCol c = true <;>
        simp [List.filter_cons, hv, hi] <;> omega
    · have hi : ¬(isIndicatorCol c = true) := fun h => hv (indicatorCol_virtual c h)
      simp [List.filter_cons, hv, hi]
      omega

theorem npArange_zero (n : ℕ) : npArange 0 n = List.range n := by
  simp [npArange]

theorem npArange_append (a b c : ℕ) (hab : a ≤ b) (hbc : b ≤ c) :
    npArange a b ++ npArange b c = npArange a c := by
  unfold npArange
  have h1 : c - a = (b - a) + (c - b) := by omega
  rw [h1, List.range_add, List.map_append, List.map_map]
  congr 1
  apply List.map_congr_left
  intro x hx
  simp only [Function.comp_apply]
  omega

/-- Every order built by `makeOrderBase` from a permutation-contract generator
is a permutation of `0..n-1`. -/
theorem makeOrderBase_perm (rng : ℕ → List ℕ → List ℕ)
    (hrng : ∀ s l, (rng s l).Perm l) (oc oif : Bool) (cols : List SpecCol) (seed : ℕ) :
    (makeOrderBase rng oc oif cols seed).Perm (List.range cols.length) := by
  cases oc with
  | false => simpa [makeOrderBase] using hrng seed (List.range cols.length)
  | true =>
    have hci := content_ind_le cols
    set n := cols.length with hn
    set nc := (cols.filter (fun c => !(isVirtualCol c))).length with hnc
    set ni := (cols.filter isIndicatorCol).length with hni
    have harr : npArange 0 nc ++ npArange nc (nc + ni) ++ npArange (nc + ni) n =
        List.range n := by
      rw [List.append_assoc, npArange_append nc (nc + ni) n (by omega) (by omega)]
      rw [npArange_append 0 nc n (by omega) (by omega), npArange_zero]
    have hA := hrng seed (npArange 0 nc)
    have hB := hrng seed (npArange nc (nc + ni))
    have hC := hrng seed (npArange (nc + ni) n)
    cases oif with
    | false =>
      have hchain := (hA.append hB).append hC
      simp only [makeOrderBase, if_true]
      rw [← hn, ← hnc, ← hni]
      simpa [harr] using hchain
    | true =>
      have hchain : ((rng seed (npArange nc (nc + ni)) ++ rng seed (npArange 0 nc)) ++
          rng seed (npArange (nc + ni) n)).Perm (List.range n) := by
        have h1 := (hB.append hA).append hC
        have h2 : ((npArange nc (nc + ni) ++ npArange 0 nc) ++ npArange (nc + ni) n).Perm
            ((npArange 0 nc ++ npArange nc (nc + ni)) ++ npArange (nc + ni) n) :=
          List.perm_append_comm.append (List.Perm.refl _)
        exact (h1.trans h2).trans (by rw [harr])
      simp only [makeOrderBase, if_true]
      rw [← hn, ← hnc, ← hni]
      simpa using hchain

theorem isBlockOf_nil (l : List ℕ) : isBlockOf [] l := ⟨[], l, by simp⟩

theorem isBlockOf_cons_ext (blk l : List ℕ) (x : ℕ) (h : isBlockOf blk l) :
    isBlockOf blk (x :: l) := by
  obtain ⟨u, v, huv⟩ := h
  exact ⟨x :: u, v, by simp [huv]⟩

theorem isBlockOf_append_ext_left (blk X Y : List ℕ) (h : isBlockOf blk Y) :
    isBlockOf blk (X ++ Y) := by
  obtain ⟨u, v, huv⟩ := h
  exact ⟨X ++ u, v, by simp [huv]⟩

theorem isBlockOf_append_ext_right (blk X Y : List ℕ) (h : isBlockOf blk X) :
    isBlockOf blk (X ++ Y) := by
  obtain ⟨u, v, huv⟩ := h
  exact ⟨u, v ++ Y, by simp [huv]⟩

/-- If `blk ++ v` equals `X ++ a :: Y` and `a` is not in `blk`, then `blk` is
an initial segment of `X`. -/
theorem blk_initial_of_append_eq (blk : List ℕ) :
    ∀ (v X Y : List ℕ) (a : ℕ), a ∉ blk → blk ++ v = X ++ a :: Y →
      ∃ w, X = blk ++ w := by
  induction blk with
  | nil => intro v X Y a _ _; exact ⟨X, rfl⟩
  | cons b bs ih =>
    intro v X Y a ha h
    cases X with
    | nil =>
      simp at h
      obtain ⟨hb, -⟩ := h
      subst hb
      exact absurd (List.mem_cons_self b bs) ha
    | cons x xs =>
      simp at h
      obtain ⟨w, hw⟩ := ih v xs Y a (fun hm => ha (List.mem_cons_of_mem b hm)) h.2
      exact ⟨w, by simp [h.1, hw]⟩

/-- A block avoiding `a` inside `X ++ a :: Y` lies wholly in `X` or in `Y`. -/
theorem isBlockOf_split (blk X Y : List ℕ) (a : ℕ) (ha : a ∉ blk)
    (h : isBlockOf blk (X ++ a :: Y)) : isBlockOf blk X ∨ isBlockOf blk Y := by
  obtain ⟨u, v, huv⟩ := h
  induction u generalizing X with
  | nil =>
    simp at huv
    obtain ⟨w, hw⟩ := blk_initial_of_append_eq blk v X Y a ha huv.symm
    exact Or.inl ⟨[], w, by simp [hw]⟩
  | cons c u ih =>
    cases X with
    | nil =>
      simp at huv
      exact Or.inr ⟨u, v, by simp [huv.2]⟩
    | cons x xs =>
      simp at huv
      rcases ih xs (by simp [huv.2]) with h | h
      · exact Or.inl (isBlockOf_cons_ext blk xs x h)
      · exact Or.inr h

theorem mem_filterOut (x : ℕ) (rest l : List ℕ) :
    x ∈ filterOut rest l ↔ x ∈ l ∧ x ∉ rest := by
  simp [filterOut]

theorem filterOut_nil_rest (l : List ℕ) : filterOut [] l = l := by
  simp [filterOut]

theorem filterOut_append (rest l₁ l₂ : List ℕ) :
    filterOut rest (l₁ ++ l₂) = filterOut rest l₁ ++ filterOut rest l₂ := by
  simp [filterOut]

theorem filterOut_eq_self (rest l : List ℕ) (h : ∀ x ∈ l, x ∉ rest) :
    filterOut rest l = l :=
  List.filter_eq_self.mpr (by intro a hha; simpa using h a hha)

/-- Filtering away foreign elements keeps a block contiguous. -/
theorem isBlockOf_filterOut (blk l rest : List ℕ) (h : isBlockOf blk l)
    (hd : ∀ x ∈ blk, x ∉ rest) : isBlockOf blk (filterOut rest l) := by
  obtain ⟨u, v, huv⟩ := h
  subst huv
  refine ⟨filterOut rest u, filterOut rest v, ?_⟩
  rw [filterOut_append, filterOut_append, filterOut_eq_self rest blk hd]

theorem mem_npDeleteAll (x s : ℕ) (l : List ℕ) :
    x ∈ npDeleteAll s l ↔ x ∈ l ∧ x ≠ s := by
  simp [npDeleteAll]

theorem npDeleteAll_append (s : ℕ) (l₁ l₂ : List ℕ) :
    npDeleteAll s (l₁ ++ l₂) = npDeleteAll s l₁ ++ npDeleteAll s l₂ := by
  simp [npDeleteAll]

theorem npDeleteAll_cons_ne (s y : ℕ) (l : List ℕ) (h : y ≠ s) :
    npDeleteAll s (y :: l) = y :: npDeleteAll s l := by
  simp [npDeleteAll, List.filter_cons, h]

theorem npDeleteAll_eq_self (s : ℕ) (l : List ℕ) (h : s ∉ l) :
    npDeleteAll s l = l :=
  List.filter_eq_self.mpr (by
    intro a hha
    simp only [bne_iff_ne, ne_eq]
    exact fun he => h (he ▸ hha))

theorem filterOut_npDeleteAll (rest : List ℕ) (s : ℕ) (l : List ℕ) :
    filterOut rest (npDeleteAll s l) = filterOut (s :: rest) l := by
  induction l with
  | nil => rfl
  | cons x xs ih =>
    by_cases hxs : x = s
    · subst hxs
      simp [npDeleteAll, filterOut, List.filter_cons] at ih ⊢
      simpa [filterOut, npDeleteAll] using ih
    · by_cases hxr : x ∈ rest <;>
        simp [npDeleteAll, filterOut, List.filter_cons, hxs, hxr] at ih ⊢ <;>
          simpa [filterOut, npDeleteAll, hxs, hxr] using ih

/-- Peeling members of `r` off a duplicate-free list: `l` is a permutation of
`r` followed by the elements of `l` outside `r`. -/
theorem perm_filterOut (r : List ℕ) : ∀ l : List ℕ, l.Nodup → r.Nodup →
    (∀ s ∈ r, s ∈ l) → l.Perm (r ++ filterOut r l) := by
  induction r with
  | nil =>
    intro l _ _ _
    simpa [filterOut_nil_rest] using List.Perm.refl l
  | cons s rs ih =>
    intro l hl hr hsub
    have hs : s ∈ l := hsub s (by simp)
    have h1 : l.Perm (s :: l.erase s) := List.perm_cons_erase hs
    have h2 : l.erase s = npDeleteAll s l := by
      rw [hl.erase_eq_filter s]; rfl
    have hl' : (npDeleteAll s l).Nodup := hl.filter _
    have hrcons := List.nodup_cons.mp hr
    have hrs : ∀ x ∈ rs, x ∈ npDeleteAll s l := by
      intro x hx
      rw [mem_npDeleteAll]
      exact ⟨hsub x (by simp [hx]), fun he => hrcons.1 (he ▸ hx)⟩
    have ih' := ih (npDeleteAll s l) hl' hrcons.2 hrs
    have : l.Perm (s :: (rs ++ filterOut rs (npDeleteAll s l))) :=
      (h1.trans (by rw [h2])).trans (ih'.cons s)
    simpa [filterOut_npDeleteAll] using this

theorem npIndexOf_append (x : ℕ) (A B : List ℕ) (hx : x ∉ A) :
    npIndexOf x (A ++ x :: B) = A.length := by
  induction A with
  | nil => simp [npIndexOf]
  | cons a as ih =>
    have hax : ¬(a = x) := fun h => hx (by simp [h])
    simp only [List.cons_append, npIndexOf, if_neg hax, List.length_cons]
    exact congrArg (· + 1) (ih (fun h => hx (List.mem_cons_of_mem a h)))

/-- Closed form of the delete/reinsert loop of the factorization correction:
starting from `A ++ first :: (placed ++ B)` with the block
`first :: placed` already contiguous, moving the remaining sub-variables
`rest` produces `A` and `B` with `rest` removed, and the full block
`first :: placed ++ rest` contiguous in place of `first`. -/
theorem subvarLoop_closed (first : ℕ) :
    ∀ (rest placed A B : List ℕ),
      (A ++ first :: (placed ++ B)).Nodup →
      first ∉ rest →
      rest.Nodup →
      (∀ s ∈ rest, s ∉ placed) →
      (∀ s ∈ rest, s ∈ A ∨ s ∈ B) →
      subvarLoop first rest (placed.length + 1) (A ++ first :: (placed ++ B)) =
        filterOut rest A ++ first :: ((placed ++ rest) ++ filterOut rest B) := by
  intro rest
  induction rest with
  | nil =>
    intro placed A B _ _ _ _ _
    simp [subvarLoop, filterOut_nil_rest]
  | cons s rs ih =>
    intro placed A B hnd hf hrnd hpl hmem
    have hfs : first ≠ s := fun h => hf (by simp [h])
    have hspl : s ∉ placed := hpl s (by simp)
    have hdisj := (List.nodup_append.mp hnd).2.2
    have hfA : first ∉ A := fun h => hdisj h (by simp)
    have hdel : npDeleteAll s (A ++ first :: (placed ++ B)) =
        npDeleteAll s A ++ first :: (placed ++ npDeleteAll s B) := by
      rw [npDeleteAll_append, npDeleteAll_cons_ne s first _ hfs, npDeleteAll_append,
        npDeleteAll_eq_self s placed hspl]
    have hfA' : first ∉ npDeleteAll s A := fun h => hfA ((mem_npDeleteAll _ _ _).mp h).1
    have hidx : npIndexOf first
        (npDeleteAll s A ++ first :: (placed ++ npDeleteAll s B)) =
        (npDeleteAll s A).length := npIndexOf_append first _ _ hfA'
    have hins : npInsert ((npDeleteAll s A).length + (placed.length + 1)) s
        (npDeleteAll s A ++ first :: (placed ++ npDeleteAll s B)) =
        npDeleteAll s A ++ first :: ((placed ++ [s]) ++ npDeleteAll s B) := by
      have hshape : npDeleteAll s A ++ first :: (placed ++ npDeleteAll s B) =
          (npDeleteAll s A ++ first :: placed) ++ npDeleteAll s B := by simp
      have hlen : (npDeleteAll s A ++ first :: placed).length =
          (npDeleteAll s A).length + (placed.length + 1) := by
        simp [List.length_append]
      rw [npInsert, hshape, List.take_left' hlen, List.drop_left' hlen]
      simp
    have hstep : subvarLoop first (s :: rs) (placed.length + 1)
          (A ++ first :: (placed ++ B)) =
        subvarLoop first rs (placed.length + 1 + 1)
          (npDeleteAll s A ++ first :: ((placed ++ [s]) ++ npDeleteAll s B)) := by
      simp only [subvarLoop]
      rw [hdel, hidx, hins]
    have hsel := hmem s (by simp)
    have hperm : (npDeleteAll s A ++ first ::
          ((placed ++ [s]) ++ npDeleteAll s B)).Perm
        (A ++ first :: (placed ++ B)) := by
      rcases hsel with hsA | hsB
      · have hA : A.Nodup := (List.nodup_append.mp hnd).1
        have hsnot : s ∉ first :: (placed ++ B) := hdisj hsA
        have hBkeep : npDeleteAll s B = B :=
          npDeleteAll_eq_self s B (fun h => hsnot (by simp [h]))
        have hAperm : A.Perm (s :: npDeleteAll s A) := by
          have h1 := List.perm_cons_erase hsA
          rw [hA.erase_eq_filter s] at h1
          exact h1
        have e1 : npDeleteAll s A ++ first :: ((placed ++ [s]) ++ npDeleteAll s B) =
            (npDeleteAll s A ++ first :: placed) ++ s :: B := by
          rw [hBkeep]; simp
        have e2 : (npDeleteAll s A ++ first :: placed) ++ B =
            npDeleteAll s A ++ first :: (placed ++ B) := by simp
        have p1 : ((npDeleteAll s A ++ first :: placed) ++ s :: B).Perm
            (s :: (npDeleteAll s A ++ first :: (placed ++ B))) := by
          have hmid := @List.perm_middle ℕ s (npDeleteAll s A ++ first :: placed) B
          rwa [e2] at hmid
        have p2 : (A ++ first :: (placed ++ B)).Perm
            (s :: (npDeleteAll s A ++ first :: (placed ++ B))) :=
          hAperm.append (List.Perm.refl _)
        rw [e1]
        exact p1.trans p2.symm
      · have hsnotA : s ∉ A := fun h => hdisj h (by simp [hsB])
        have hAkeep : npDeleteAll s A = A := npDeleteAll_eq_self s A hsnotA
        have hB : B.Nodup := by
          have h1 := (List.nodup_append.mp hnd).2.1
          have h2 := (List.nodup_cons.mp h1).2
          exact (List.nodup_append.mp h2).2.1
        have hBperm : B.Perm (s :: npDeleteAll s B) := by
          have h1 := List.perm_cons_erase hsB
          rw [hB.erase_eq_filter s] at h1
          exact h1
        have e1 : npDeleteAll s A ++ first :: ((placed ++ [s]) ++ npDeleteAll s B) =
            (A ++ first :: placed) ++ s :: npDeleteAll s B := by
          rw [hAkeep]; simp
        have e2 : (A ++ first :: placed) ++ B = A ++ first :: (placed ++ B) := by simp
        have p1 : ((A ++ first :: placed) ++ s :: npDeleteAll s B).Perm
            (s :: ((A ++ first :: placed) ++ npDeleteAll s B)) := List.perm_middle
        have p2 : (A ++ first :: (placed ++ B)).Perm
            (s :: ((A ++ first :: placed) ++ npDeleteAll s B)) := by
          have h3 : ((A ++ first :: placed) ++ B).Perm
              ((A ++ first :: placed) ++ s :: npDeleteAll s B) :=
            (List.Perm.refl _).append hBperm
          have h4 := h3.trans List.perm_middle
          rwa [e2] at h4
        rw [e1]
        exact p1.trans p2.symm
    have hnd' : (npDeleteAll s A ++ first ::
        ((placed ++ [s]) ++ npDeleteAll s B)).Nodup := hperm.nodup_iff.mpr hnd
    have h2 : first ∉ rs := fun h => hf (by simp [h])
    have hrscons := List.nodup_cons.mp hrnd
    have h4 : ∀ x ∈ rs, x ∉ placed ++ [s] := by
      intro x hx hxin
      rcases List.mem_append.mp hxin with hxp | hxs
      · exact hpl x (by simp [hx]) hxp
      · have hxe : x = s := by simpa using hxs
        exact hrscons.1 (hxe ▸ hx)
    have h5 : ∀ x ∈ rs, x ∈ npDeleteAll s A ∨ x ∈ npDeleteAll s B := by
      intro x hx
      have hxs : x ≠ s := fun he => hrscons.1 (he ▸ hx)
      rcases hmem x (by simp [hx]) with h | h
      · exact Or.inl ((mem_npDeleteAll _ _ _).mpr ⟨h, hxs⟩)
      · exact Or.inr ((mem_npDeleteAll _ _ _).mpr ⟨h, hxs⟩)
    have hIH := ih (placed ++ [s]) (npDeleteAll s A) (npDeleteAll s B) hnd' h2
      hrscons.2 h4 h5
    rw [hstep]
    have hlen2 : (placed ++ [s]).length + 1 = placed.length + 1 + 1 := by simp
    rw [← hlen2, hIH, filterOut_npDeleteAll, filterOut_npDeleteAll]
    simp

/-- Packaging of the closed form for one original column. -/
theorem correctSubvars_closed (order : List ℕ) (first : ℕ) (rest : List ℕ)
    (hnd : order.Nodup) (hfm : first ∈ order) (hfr : first ∉ rest)
    (hrnd : rest.Nodup) (hrm : ∀ s ∈ rest, s ∈ order) :
    ∃ A B, order = A ++ first :: B ∧
      correctSubvars order (first :: rest) =
        filterOut rest A ++ first :: (rest ++ filterOut rest B) := by
  obtain ⟨A, B, hAB⟩ := List.append_of_mem hfm
  refine ⟨A, B, hAB, ?_⟩
  subst hAB
  have hkey := subvarLoop_closed first rest [] A B (by simpa using hnd) hfr hrnd
    (by simp) ?_
  · simpa [correctSubvars] using hkey
  · intro s hs
    have hso := hrm s hs
    have hsf : s ≠ first := fun he => hfr (he ▸ hs)
    rcases List.mem_append.mp hso with h | h
    · exact Or.inl h
    · rcases List.mem_cons.mp h with h1 | h1
      · exact absurd h1 hsf
      · exact Or.inr h1

/-- The factorization correction for one column preserves the multiset of the
order. -/
theorem correctSubvars_perm (order sub : List ℕ) (hnd : order.Nodup)
    (hsnd : sub.Nodup) (hsm : ∀ s ∈ sub, s ∈ order) :
    (correctSubvars order sub).Perm order := by
  cases sub with
  | nil => simp [correctSubvars]
  | cons first rest =>
    have hcons := List.nodup_cons.mp hsnd
    obtain ⟨A, B, hAB, hres⟩ := correctSubvars_closed order first rest hnd
      (hsm first (by simp)) hcons.1 hcons.2 (fun s hs => hsm s (by simp [hs]))
    rw [hres, hAB]
    have hABnd : (A ++ B).Nodup := by
      have hsub : (A ++ B).Sublist (A ++ first :: B) :=
        (List.sublist_cons_self first B).append_left A
      exact (hAB ▸ hnd).sublist hsub
    have hrAB : ∀ s ∈ rest, s ∈ A ++ B := by
      intro s hs
      have hso := hsm s (by simp [hs])
      rw [hAB] at hso
      have hsf : s ≠ first := fun he => hcons.1 (he ▸ hs)
      rcases List.mem_append.mp hso with h | h
      · exact List.mem_append.mpr (Or.inl h)
      · rcases List.mem_cons.mp h with h1 | h1
        · exact absurd h1 hsf
        · exact List.mem_append.mpr (Or.inr h1)
    have hmain : (filterOut rest A ++ (rest ++ filterOut rest B)).Perm (A ++ B) := by
      have h1 := perm_filterOut rest (A ++ B) hABnd hcons.2 hrAB
      rw [filterOut_append] at h1
      have h2 : (filterOut rest A ++ (rest ++ filterOut rest B)).Perm
          ((filterOut rest A ++ rest) ++ filterOut rest B) := by
        rw [List.append_assoc]
      have h3 : ((filterOut rest A ++ rest) ++ filterOut rest B).Perm
          ((rest ++ filterOut rest A) ++ filterOut rest B) :=
        List.perm_append_comm.append (List.Perm.refl _)
      have h4 : ((rest ++ filterOut rest A) ++ filterOut rest B).Perm
          (rest ++ (filterOut rest A ++ filterOut rest B)) := by
        rw [List.append_assoc]
      exact ((h2.trans h3).trans h4).trans h1.symm
    have p1 : (filterOut rest A ++ first :: (rest ++ filterOut rest B)).Perm
        (first :: (filterOut rest A ++ (rest ++ filterOut rest B))) :=
      List.perm_middle
    have p2 : (A ++ first :: B).Perm (first :: (A ++ B)) := List.perm_middle
    exact (p1.trans (hmain.cons first)).trans p2.symm

/-- After the correction, the sub-variables of the treated column are
consecutive and in ascending sub-variable order. -/
theorem correctSubvars_isBlockOf (order : List ℕ) (first : ℕ) (rest : List ℕ)
    (hnd : order.Nodup) (hfm : first ∈ order) (hfr : first ∉ rest)
    (hrnd : rest.Nodup) (hrm : ∀ s ∈ rest, s ∈ order) :
    isBlockOf (first :: rest) (correctSubvars order (first :: rest)) := by
  obtain ⟨A, B, hAB, hres⟩ := correctSubvars_closed order first rest hnd hfm hfr
    hrnd hrm
  rw [hres]
  exact ⟨filterOut rest A, filterOut rest B, by simp⟩

/-- The correction for one column keeps any contiguous block disjoint from it
contiguous. -/
theorem correctSubvars_keeps_block (order sub blk : List ℕ) (hnd : order.Nodup)
    (hsnd : sub.Nodup) (hsm : ∀ s ∈ sub, s ∈ order)
    (hblk : isBlockOf blk order) (hdisj : ∀ s ∈ sub, s ∉ blk) :
    isBlockOf blk (correctSubvars order sub) := by
  cases sub with
  | nil => simpa [correctSubvars] using hblk
  | cons first rest =>
    have hcons := List.nodup_cons.mp hsnd
    obtain ⟨A, B, hAB, hres⟩ := correctSubvars_closed order first rest hnd
      (hsm first (by simp)) hcons.1 hcons.2 (fun s hs => hsm s (by simp [hs]))
    have hfb : first ∉ blk := hdisj first (by simp)
    have hrb : ∀ x ∈ blk, x ∉ rest := by
      intro x hx hxr
      exact hdisj x (by simp [hxr]) hx
    rw [hres]
    rcases isBlockOf_split blk A B first hfb (hAB ▸ hblk) with h | h
    · exact isBlockOf_append_ext_right _ _ _ (isBlockOf_filterOut blk A rest h hrb)
    · have h1 : isBlockOf blk (filterOut rest B) := isBlockOf_filterOut blk B rest h hrb
      have h2 : filterOut rest A ++ first :: (rest ++ filterOut rest B) =
          (filterOut rest A ++ first :: rest) ++ filterOut rest B := by simp
      rw [h2]
      exact isBlockOf_append_ext_left _ _ _ h1

/-- Any treated sub-variable list is contiguous after its own correction. -/
theorem correctSubvars_self_block (order sub : List ℕ) (hnd : order.Nodup)
    (hsnd : sub.Nodup) (hsm : ∀ s ∈ sub, s ∈ order) :
    isBlockOf sub (correctSubvars order sub) := by
  cases sub with
  | nil => exact isBlockOf_nil _
  | cons first rest =>
    have hcons := List.nodup_cons.mp hsnd
    exact correctSubvars_isBlockOf order first rest hnd (hsm first (by simp))
      hcons.1 hcons.2 (fun s hs => hsm s (by simp [hs]))

theorem mem_joinL_cons (x : ℕ) (l : List ℕ) (ls : List (List ℕ)) :
    x ∈ joinL (l :: ls) ↔ x ∈ l ∨ x ∈ joinL ls := by
  simp [joinL]

/-- Invariants of the full factorization correction fold: the corrected order
stays a permutation of `0..n-1`, disjoint contiguous blocks stay contiguous,
and every treated column ends with its sub-variables contiguous in ascending
order. -/
theorem correctOrder_spec (n : ℕ) :
    ∀ (fms : List (List ℕ)) (order : List ℕ),
      order.Perm (List.range n) →
      (joinL fms).Nodup →
      (∀ s ∈ joinL fms, s < n) →
      (correctOrder fms order).Perm (List.range n) ∧
      (∀ blk, isBlockOf blk order → (∀ s ∈ joinL fms, s ∉ blk) →
        isBlockOf blk (correctOrder fms order)) ∧
      (∀ sub ∈ fms, isBlockOf sub (correctOrder fms order)) := by
  intro fms
  induction fms with
  | nil =>
    intro order hp _ _
    exact ⟨by simpa [correctOrder] using hp,
      fun blk hb _ => by simpa [correctOrder] using hb,
      by simp⟩
  | cons sub fms ih =>
    intro order hp hnd hbd
    have hfold : correctOrder (sub :: fms) order =
        correctOrder fms (correctSubvars order sub) := rfl
    have hndsplit := List.nodup_append.mp (by simpa [joinL] using hnd :
      (sub ++ joinL fms).Nodup)
    have hsubnd : sub.Nodup := hndsplit.1
    have hfmsnd : (joinL fms).Nodup := hndsplit.2.1
    have hdisj : List.Disjoint sub (joinL fms) := hndsplit.2.2
    have hordnd : order.Nodup := hp.nodup_iff.mpr (List.nodup_range n)
    have hsm : ∀ s ∈ sub, s ∈ order := by
      intro s hs
      have hsn : s < n := hbd s ((mem_joinL_cons s sub fms).mpr (Or.inl hs))
      exact hp.mem_iff.mpr (List.mem_range.mpr hsn)
    have hperm' : (correctSubvars order sub).Perm (List.range n) :=
      (correctSubvars_perm order sub hordnd hsubnd hsm).trans hp
    obtain ⟨ih1, ih2, ih3⟩ := ih (correctSubvars order sub) hperm' hfmsnd
      (fun s hs => hbd s ((mem_joinL_cons s sub fms).mpr (Or.inr hs)))
    rw [hfold]
    refine ⟨ih1, ?_, ?_⟩
    · intro blk hb hdb
      apply ih2
      · exact correctSubvars_keeps_block order sub blk hordnd hsubnd hsm hb
          (fun s hs => hdb s ((mem_joinL_cons s sub fms).mpr (Or.inl hs)))
      · intro s hs
        exact hdb s ((mem_joinL_cons s sub fms).mpr (Or.inr hs))
    · intro sub' hsub'
      rcases List.mem_cons.mp hsub' with rfl | h
      · apply ih2
        · exact correctSubvars_self_block order sub' hordnd hsubnd hsm
        · intro s hs hsin
          exact hdisj hsin hs
      · exact ih3 sub' h

/-- Claim C5: with ensemble size `k` over the training columns, the builder
produces exactly the orders seeded with ensemble index plus one (a
deterministic function of that seed); every such order is a permutation of
`0..n-1`; and when a factor table is present, after the factorization
correction the sub-variable columns of each original column occupy
consecutive positions in ascending sub-variable order. -/
theorem C5_orderings (rng : ℕ → List ℕ → List ℕ) (hrng : ∀ s l, (rng s l).Perm l)
    (oc oif : Bool) (cols : List SpecCol) (k i : ℕ) (fm : List (List ℕ))
    (hk : 0 < k) (hnd : (joinL fm).Nodup) (hbd : ∀ s ∈ joinL fm, s < cols.length) :
    makeMadeOrders rng k oc oif cols (some fm) =
      some ((List.range k).map (fun j =>
        correctOrder fm (makeOrderBase rng oc oif cols (j + 1)))) ∧
    (correctOrder fm (makeOrderBase rng oc oif cols (i + 1))).Perm
      (List.range cols.length) ∧
    (∀ sub ∈ fm, isBlockOf sub
      (correctOrder fm (makeOrderBase rng oc oif cols (i + 1)))) := by
  have hbase := makeOrderBase_perm rng hrng oc oif cols (i + 1)
  obtain ⟨h1, h2, h3⟩ := correctOrder_spec cols.length fm
    (makeOrderBase rng oc oif cols (i + 1)) hbase hnd hbd
  exact ⟨by simp [makeMadeOrders, hk], h1, h3⟩

/-- Witness for C5: reversal generator, two columns factorized into the
sub-variable pair `[0, 1]`, ensemble size 2, ensemble index 1. -/
theorem C5_orderings_witness :
    makeMadeOrders revRng 2 false false [⟨['a']⟩, ⟨['b']⟩] (some [[0, 1]]) =
      some ((List.range 2).map (fun j =>
        correctOrder [[0, 1]] (makeOrderBase revRng false false [⟨['a']⟩, ⟨['b']⟩] (j + 1)))) ∧
    (correctOrder [[0, 1]]
      (makeOrderBase revRng false false [⟨['a']⟩, ⟨['b']⟩] 2)).Perm (List.range 2) ∧
    isBlockOf [0, 1]
      (correctOrder [[0, 1]] (makeOrderBase revRng false false [⟨['a']⟩, ⟨['b']⟩] 2)) := by
  have h := C5_orderings revRng (fun s l => l.reverse_perm) false false
    [⟨['a']⟩, ⟨['b']⟩] 2 1 [[0, 1]] (by norm_num) (by decide) (by decide)
  exact ⟨h.1, h.2.1, h.2.2 [0, 1] (by simp)⟩

/-- Claim C6 counterexample: with `special_orders = 1` the builder does run the
seeded randomization (seed 1) - for the permutation-contract generator that
reverses its input, the single produced ordering is `[1, 0]`, not the natural
ordering `[0, 1]`; so ensemble size 1 does not yield the natural or fixed
ordering unchanged. -/
theorem C6_counterexample :
    makeMadeOrders revRng 1 false false [⟨['a']⟩, ⟨['b']⟩] none = some [[1, 0]] ∧
    (revRng 1 (List.range 2)).Perm (List.range 2) ∧
    some [[1, 0]] ≠ some [[0, 1]] := by
  refine ⟨by decide, ?_, by decide⟩
  exact List.reverse_perm (List.range 2)

/-- Claim C6 (amended): ensemble size 0 installs no orderings, leaving the
natural or fixed ordering unchanged with no randomization; ensemble size 1
instead builds exactly one seeded random ordering (seed 1), a permutation of
`0..n-1` like any other ensemble member, rather than the natural ordering
unchanged. -/
theorem C6_amended (rng : ℕ → List ℕ → List ℕ) (hrng : ∀ s l, (rng s l).Perm l)
    (oc oif : Bool) (cols : List SpecCol) (fm : Option (List (List ℕ))) :
    makeMadeOrders rng 0 oc oif cols fm = none ∧
    makeMadeOrders rng 1 oc oif cols none = some [makeOrderBase rng oc oif cols 1] ∧
    (makeOrderBase rng oc oif cols 1).Perm (List.range cols.length) := by
  refine ⟨rfl, ?_, makeOrderBase_perm rng hrng oc oif cols 1⟩
  have hr : List.range 1 = [0] := rfl
  simp [makeMadeOrders, hr]

/-- Witness for the amended C6 with the reversal generator over two columns. -/
theorem C6_amended_witness :
    makeMadeOrders revRng 0 false false [⟨['a']⟩, ⟨['b']⟩] none = none ∧
    makeMadeOrders revRng 1 false false [⟨['a']⟩, ⟨['b']⟩] none =
      some [makeOrderBase revRng false false [⟨['a']⟩, ⟨['b']⟩] 1] ∧
    (makeOrderBase revRng false false [⟨['a']⟩, ⟨['b']⟩] 1).Perm (List.range 2) := by
  simpa using C6_amended revRng (fun s l => l.reverse_perm) false false
    [⟨['a']⟩, ⟨['b']⟩] none
